import Mathlib

/-!
A shallow embedding of `src/loss.py` and `src/plot.py` of the
SGDSlicedWasserstein repository.

Representation choices:
* Tensor entries are rational numbers (exact arithmetic in place of floats).
* A batch tensor of shape [n, d] is a list of n rows, each a list of d entries.
* The projection matrix `theta` of shape [d, P] is kept column-major: a list of
  P columns, each a list of d entries.  `torch.sort(·, dim=0)` then sorts each
  column, and `batch @ theta` maps each column to the list of row dot products.
* `torch.randn(d, P)` is modelled by an oracle `rng : ℕ → ℕ → Mat` supplying the
  drawn matrix; theorems assume only the shape that `randn` guarantees.
* The square root inside `F.normalize` is modelled by an oracle `sqrtO : ℚ → ℚ`;
  theorems that need it assume it is correct (nonnegative, squaring back) on the
  finitely many values it is applied to.  `F.normalize(theta, dim=0)` divides
  each column by `max ‖column‖ eps` with the torch default `eps = 1e-12`.
* Shape-checked torch operations (`@`, elementwise `-` with dim-0 broadcasting)
  return `Option`: `none` is the "raises a shape error" branch.
-/

namespace SWD

/-- A 2-D tensor with rational entries. -/
abbrev Mat := List (List ℚ)

/-- Dot product of two equal-length vectors (zipWith truncates otherwise). -/
def dot (u v : List ℚ) : ℚ := (List.zipWith (fun x y => x * y) u v).sum

/-- Sum of squares of a vector: the squared Euclidean norm. -/
def sumSq (v : List ℚ) : ℚ := (v.map (fun x => x * x)).sum

/-- Feature dimension read off a row-major batch, as `tensor.shape[1]`. -/
def numCols (A : Mat) : ℕ := (A.headD []).length

/-- Torch default `eps` of `F.normalize`: `1e-12`. -/
def eps : ℚ := 1 / 10 ^ 12

/-- One column of `F.normalize(theta, dim=0)`: divide by `max ‖v‖ eps`, the
Euclidean norm being supplied by the square-root oracle. -/
def normalizeCol (sqrtO : ℚ → ℚ) (v : List ℚ) : List ℚ :=
  v.map (fun x => x / max (sqrtO (sumSq v)) eps)

/-- `F.normalize(theta, dim=0)` on a column-major matrix. -/
def normalizeCols (sqrtO : ℚ → ℚ) (T : Mat) : Mat := T.map (normalizeCol sqrtO)

/-- `A @ T` with `A` row-major [n, d] and `T` column-major [d, P].  Torch
raises a shape error unless the inner dimensions agree, modelled by the
per-column length check. -/
def matmul (A : Mat) (T : Mat) : Option Mat :=
  if ∀ c ∈ T, c.length = numCols A then
    some (T.map (fun c => A.map (fun row => dot row c)))
  else none

/-- `torch.sort(·, dim=0)` on one column: ascending sort. -/
def sortCol (v : List ℚ) : List ℚ := v.insertionSort (fun x y => x ≤ y)

/-- Elementwise subtraction of two columns with torch dim-0 broadcasting:
equal lengths subtract pointwise, a length-1 operand is broadcast, and any
other mismatch raises a shape error (`none`). -/
def subCol (ca cb : List ℚ) : Option (List ℚ) :=
  if ca.length = cb.length then some (List.zipWith (fun x y => x - y) ca cb)
  else if ca.length = 1 then some (cb.map (fun y => ca.headD 0 - y))
  else if cb.length = 1 then some (ca.map (fun x => x - cb.headD 0))
  else none

/-- Collect a list of optional values, failing if any entry failed. -/
def optList {α : Type} : List (Option α) → Option (List α)
  | [] => some []
  | none :: _ => none
  | some x :: rest => (optList rest).map (fun xs => x :: xs)

/-- Elementwise subtraction of two column-major matrices (torch `-`). -/
def sub2d (A B : Mat) : Option Mat :=
  if A.length = B.length then optList (List.zipWith subCol A B) else none

/-- `torch.mean` over all entries, given here the flattened entry list. -/
def mean (l : List ℚ) : ℚ := l.sum / (l.length : ℚ)

/-- Embedding of `sw_loss` from `src/loss.py`: draw `theta = randn(d, P)`,
normalize its columns, project both batches, sort each projection column,
and return the mean of the squared differences.  `none` is the error branch
of the shape-checked torch operations. -/
def sw_loss (true_distribution generated_distribution : Mat)
    (rng : ℕ → ℕ → Mat) (sqrtO : ℚ → ℚ) (num_projections : ℕ := 100) : Option ℚ :=
  let feature_dim := numCols true_distribution
  let theta := normalizeCols sqrtO (rng feature_dim num_projections)
  match matmul true_distribution theta, matmul generated_distribution theta with
  | some proj_true, some proj_fake =>
    let proj_true_sorted := proj_true.map sortCol
    let proj_fake_sorted := proj_fake.map sortCol
    (match sub2d proj_true_sorted proj_fake_sorted with
     | some diff => some (mean ((diff.map (fun c => c.map (fun x => x ^ 2))).flatten))
     | none => none)
  | _, _ => none

/-- Embedding of the `SWDLoss` module: it stores only `num_projections`. -/
structure SWDLoss where
  num_projections : ℕ := 100

/-- `SWDLoss.forward` delegates to `sw_loss` with the stored projection count. -/
def SWDLoss.forward (self : SWDLoss) (true_distribution generated_distribution : Mat)
    (rng : ℕ → ℕ → Mat) (sqrtO : ℚ → ℚ) : Option ℚ :=
  sw_loss true_distribution generated_distribution rng sqrtO self.num_projections

/-- Shape contract of `torch.randn(d, P)`: P columns, each of length d. -/
abbrev wellDrawn (rng : ℕ → ℕ → Mat) (d P : ℕ) : Prop :=
  (rng d P).length = P ∧ ∀ c ∈ rng d P, c.length = d

/-- A genuine 2-D tensor: every row has the common length. -/
abbrev isRect (A : Mat) : Prop := ∀ row ∈ A, row.length = numCols A

/-- Spec-side score for C1, written from the claim: the mean, over all
`n * P` entries, of the squared differences between the per-direction
ascending-sorted projections of the two batches onto the direction matrix. -/
def swSpecScore (a b : Mat) (dirs : Mat) : ℚ :=
  let pa := dirs.map (fun u => sortCol (a.map (fun row => dot row u)))
  let pb := dirs.map (fun u => sortCol (b.map (fun row => dot row u)))
  (List.zipWith (fun ca cb => (List.zipWith (fun x y => (x - y) ^ 2) ca cb).sum) pa pb).sum
    / ((a.length : ℚ) * (dirs.length : ℚ))

/-- Ascending-sorted raw values of a 1-D batch (spec side of C6). -/
def sortedRaw (a : Mat) : List ℚ := sortCol (a.map (fun row => row.headD 0))

/-- Mean squared difference of the ascending-sorted raw values of two 1-D
batches (spec side of C6). -/
def mse1D (a b : Mat) : ℚ :=
  mean (List.zipWith (fun x y => (x - y) ^ 2) (sortedRaw a) (sortedRaw b))

/-- Minimal JSON value model for the training-history file of `plot_loss`. -/
inductive Json where
  | null
  | bool (b : Bool)
  | num (q : ℚ)
  | str (s : String)
  | arr (elems : List Json)
  | obj (fields : List (String × Json))

/-- Python dict access `history[k]`: `none` models the raised KeyError (or
TypeError when the parsed value is not an object). -/
def getKey : Json → String → Option Json
  | .obj fields, k => fields.lookup k
  | _, _ => none

/-- Coerce a JSON value to the list of floats the plotting call consumes. -/
def asNumList : Json → Option (List ℚ)
  | .arr elems => optList (elems.map (fun j => match j with | .num q => some q | _ => none))
  | _ => none

/-- Modelled from the spec: the plotting collaborator's single-argument line
plot, which renders a sequence against "their own index as the x-axis". -/
def plt_plot (ys : List ℚ) : List (ℕ × ℚ) := (List.range ys.length).zip ys

/-- The two rendered loss curves, as (epoch index, value) points. -/
structure LossCurves where
  train_pts : List (ℕ × ℚ)
  valid_pts : List (ℕ × ℚ)

/-- Embedding of `plot_loss` from `src/plot.py`: the argument is the parsed
content of the history file (`none` when the file is missing or malformed, in
which case the open/parse error propagates), the two series are read by key
access in source order and plotted against their own indices. -/
def plot_loss (file : Option Json) : Except String LossCurves :=
  match file with
  | none => .error "io-or-parse-error"
  | some history =>
    match getKey history "train_loss" with
    | none => .error "KeyError: train_loss"
    | some t =>
      match getKey history "valid_loss" with
      | none => .error "KeyError: valid_loss"
      | some v =>
        match asNumList t, asNumList v with
        | some train_loss, some valid_loss =>
          .ok ⟨plt_plot train_loss, plt_plot valid_loss⟩
        | _, _ => .error "plot-type-error"

/-- Heap of tensors for the frame-effect embedding: torch tensors live in a
store addressed by index. -/
abbrev Heap := List Mat

/-- Read a tensor cell of the heap. -/
def readT (h : Heap) (i : ℕ) : Mat := h.getD i []

/-- Stateful embedding of `sw_loss`: the two batches are heap references, and
every torch operation of the source (randn, normalize, the two products, the
two sorts, the subtraction, the square, the mean) allocates a fresh cell —
none of them is an in-place variant, so no existing cell is ever written. -/
def sw_lossST (h : Heap) (ia ib : ℕ) (rng : ℕ → ℕ → Mat) (sqrtO : ℚ → ℚ)
    (num_projections : ℕ := 100) : Heap × Option ℕ :=
  let a := readT h ia
  let b := readT h ib
  let h1 := h ++ [rng (numCols a) num_projections]
  let theta := normalizeCols sqrtO (readT h1 h.length)
  let h2 := h1 ++ [theta]
  match matmul a theta, matmul b theta with
  | some proj_true, some proj_fake =>
    let proj_true_sorted := proj_true.map sortCol
    let proj_fake_sorted := proj_fake.map sortCol
    let h3 := h2 ++ [proj_true, proj_fake, proj_true_sorted, proj_fake_sorted]
    (match sub2d proj_true_sorted proj_fake_sorted with
     | some diff =>
       let sq := diff.map (fun c => c.map (fun x => x ^ 2))
       let h4 := h3 ++ [diff, sq, [[mean sq.flatten]]]
       (h4, some (h4.length - 1))
     | none => (h3, none))
  | _, _ => (h2, none)

/-! Concrete fixtures used by witnesses. -/

/-- A fixed draw with a single column of length 2. -/
def rngTwo : ℕ → ℕ → Mat := fun _ _ => [[1, 0]]

/-- A fixed draw with a single column of length 1. -/
def rngOne : ℕ → ℕ → Mat := fun _ _ => [[1]]

/-- A fixed draw with a single negative column of length 1. -/
def rngNegOne : ℕ → ℕ → Mat := fun _ _ => [[-1]]

/-- A fixed draw with a single column whose sole entry is below `eps`. -/
def rngTiny : ℕ → ℕ → Mat := fun _ _ => [[eps / 2]]

/-- A concrete parsed history file with three points per series. -/
def historyFixture : Json :=
  Json.obj [("train_loss", Json.arr [Json.num 1, Json.num 2, Json.num 3]),
            ("valid_loss", Json.arr [Json.num 4, Json.num 5, Json.num 6])]

/-! Basic lemmas about the embedded operations. -/

theorem length_normalizeCol (q : ℚ → ℚ) (v : List ℚ) :
    (normalizeCol q v).length = v.length := by
  simp [normalizeCol]

theorem matmul_of_shape {A T : Mat} (h : ∀ c ∈ T, c.length = numCols A) :
    matmul A T = some (T.map (fun c => A.map (fun row => dot row c))) := by
  simp only [matmul]
  rw [if_pos h]

theorem optList_map_some {α β : Type} (f : α → β) (l : List α) :
    optList (l.map (fun x => some (f x))) = some (l.map f) := by
  induction l with
  | nil => rfl
  | cons x rest ih => simp [optList, ih]

theorem subCol_self (c : List ℚ) :
    subCol c c = some (c.map (fun x => x - x)) := by
  simp [subCol, List.zipWith_same]

theorem sub2d_self (L : Mat) :
    sub2d L L = some (L.map (fun c => c.map (fun x => x - x))) := by
  simp only [sub2d, if_pos rfl, List.zipWith_same, subCol_self]
  exact optList_map_some _ L

theorem mean_nonneg {l : List ℚ} (h : ∀ x ∈ l, 0 ≤ x) : 0 ≤ mean l :=
  div_nonneg (List.sum_nonneg h) (Nat.cast_nonneg _)

theorem mean_zero_of_all_zero {l : List ℚ} (h : ∀ x ∈ l, x = 0) : mean l = 0 := by
  rw [mean, List.sum_eq_zero h, zero_div]

/-! C8. -/

/-- C8: for every projection count `k` and all batches, `SWDLoss.forward`
returns exactly `sw_loss` under the same random draws, and an `SWDLoss`
value holds nothing beyond its `num_projections` configuration. -/
theorem SWDLoss_forward_eq_sw_loss :
    (∀ (k : ℕ) (a b : Mat) (rng : ℕ → ℕ → Mat) (q : ℚ → ℚ),
      (SWDLoss.mk k).forward a b rng q = sw_loss a b rng q k)
    ∧ ∀ m : SWDLoss, m = SWDLoss.mk m.num_projections :=
  ⟨fun _ _ _ _ _ => rfl, fun _ => rfl⟩

/-! C3. -/

/-- C3: with both arguments the identical batch, `sw_loss` returns exactly 0,
for every projection count and every drawn direction matrix of the shape
`randn` guarantees. -/
theorem sw_loss_self_zero (a : Mat) (rng : ℕ → ℕ → Mat) (q : ℚ → ℚ) (P : ℕ)
    (hshape : ∀ c ∈ rng (numCols a) P, c.length = numCols a) :
    sw_loss a a rng q P = some 0 := by
  have htheta : ∀ c ∈ normalizeCols q (rng (numCols a) P), c.length = numCols a := by
    intro c hc
    rcases List.mem_map.1 hc with ⟨c0, hc0, rfl⟩
    rw [length_normalizeCol]
    exact hshape c0 hc0
  simp only [sw_loss, matmul_of_shape htheta, sub2d_self]
  refine congrArg some (mean_zero_of_all_zero ?_)
  intro x hx
  rcases List.mem_flatten.1 hx with ⟨inner, hinner, hxin⟩
  rcases List.mem_map.1 hinner with ⟨c, hc, rfl⟩
  rcases List.mem_map.1 hxin with ⟨y, hy, rfl⟩
  rcases List.mem_map.1 hc with ⟨c0, _, rfl⟩
  rcases List.mem_map.1 hy with ⟨z, _, rfl⟩
  simp

/-- C3 witness: a concrete identical pair of batches scores exactly 0. -/
theorem sw_loss_self_zero_witness :
    (∀ c ∈ rngTwo (numCols [[(1 : ℚ), 2]]) 1, c.length = numCols [[(1 : ℚ), 2]])
    ∧ sw_loss [[(1 : ℚ), 2]] [[(1 : ℚ), 2]] rngTwo (fun _ => 1) 1 = some 0 :=
  ⟨by decide, sw_loss_self_zero [[(1 : ℚ), 2]] rngTwo (fun _ => 1) 1 (by decide)⟩

/-! C2. -/

/-- C2: whenever `sw_loss` returns a score, that score is nonnegative. -/
theorem sw_loss_nonneg (a b : Mat) (rng : ℕ → ℕ → Mat) (q : ℚ → ℚ) (P : ℕ)
    (s : ℚ) (h : sw_loss a b rng q P = some s) : 0 ≤ s := by
  simp only [sw_loss] at h
  split at h
  case _ proj_true proj_fake _ =>
    split at h
    case _ diff _ =>
      injection h with h
      subst h
      apply mean_nonneg
      intro x hx
      rcases List.mem_flatten.1 hx with ⟨inner, hinner, hxin⟩
      rcases List.mem_map.1 hinner with ⟨c, _, rfl⟩
      rcases List.mem_map.1 hxin with ⟨y, _, rfl⟩
      exact sq_nonneg y
    case _ => exact absurd h (by simp)
  case _ => exact absurd h (by simp)

/-- C2 witness: a concrete valid call returns a nonnegative score. -/
theorem sw_loss_nonneg_witness :
    sw_loss [[(1 : ℚ), 2]] [[(3 : ℚ), 4]] rngTwo (fun _ => 1) 1 = some 4
    ∧ (0 : ℚ) ≤ 4 := by
  have hval : sw_loss [[(1 : ℚ), 2]] [[(3 : ℚ), 4]] rngTwo (fun _ => 1) 1 = some 4 := by
    norm_num [sw_loss, rngTwo, normalizeCols, normalizeCol, sumSq, eps, max_def, numCols,
      matmul, dot, sortCol, List.insertionSort, List.orderedInsert, sub2d, subCol,
      optList, mean]
  exact ⟨hval, sw_loss_nonneg [[(1 : ℚ), 2]] [[(3 : ℚ), 4]] rngTwo (fun _ => 1) 1 4 hval⟩

/-! Further shape lemmas. -/

theorem matmul_none {A T : Mat} (h : ¬ ∀ c ∈ T, c.length = numCols A) :
    matmul A T = none := by
  simp only [matmul]
  rw [if_neg h]

theorem length_sortCol (v : List ℚ) : (sortCol v).length = v.length :=
  (List.perm_insertionSort _ v).length_eq

theorem sumSq_cons (x : ℚ) (xs : List ℚ) : sumSq (x :: xs) = x * x + sumSq xs := by
  simp [sumSq]

theorem sumSq_map_div (c : List ℚ) (s : ℚ) :
    sumSq (c.map (fun x => x / s)) = sumSq c / (s * s) := by
  induction c with
  | nil => simp [sumSq]
  | cons x xs ih =>
    simp only [List.map_cons, sumSq_cons, ih]
    rw [div_mul_div_comm, div_add_div_same]

theorem sub2d_head_none {x y : List ℚ} {xs ys : Mat}
    (hlen : xs.length = ys.length) (h : subCol x y = none) :
    sub2d (x :: xs) (y :: ys) = none := by
  simp [sub2d, hlen, h, optList]

theorem sumSq_normalizeCol {q : ℚ → ℚ} {c : List ℚ}
    (hsq : q (sumSq c) * q (sumSq c) = sumSq c) (hge : eps ≤ q (sumSq c)) :
    sumSq (normalizeCol q c) = 1 := by
  have heps : (0 : ℚ) < eps := by norm_num [eps]
  have hpos : 0 < q (sumSq c) := lt_of_lt_of_le heps hge
  rw [normalizeCol, max_eq_left hge, sumSq_map_div, hsq]
  exact div_self (hsq ▸ (mul_pos hpos hpos).ne')

theorem zipWith_map_same {α β γ : Type} (f g : α → β) (h : β → β → γ) (l : List α) :
    List.zipWith h (l.map f) (l.map g) = l.map (fun u => h (f u) (g u)) := by
  rw [List.zipWith_map, List.zipWith_same]

theorem optList_subCol (A : Mat) (B : Mat)
    (h : ∀ p ∈ A.zip B, p.1.length = p.2.length) :
    optList (List.zipWith subCol A B)
      = some (List.zipWith (fun ca cb => List.zipWith (fun x y => x - y) ca cb) A B) := by
  induction A generalizing B with
  | nil => simp [optList]
  | cons x xs ih =>
    cases B with
    | nil => simp [optList]
    | cons y ys =>
      have hx : x.length = y.length := h (x, y) (by simp)
      have htail := ih ys (fun p hp => h p (by simp [hp]))
      simp [subCol, hx, optList, htail]

theorem sub2d_some {A B : Mat} (hAB : A.length = B.length)
    (h : ∀ p ∈ A.zip B, p.1.length = p.2.length) :
    sub2d A B
      = some (List.zipWith (fun ca cb => List.zipWith (fun x y => x - y) ca cb) A B) := by
  simp only [sub2d]
  rw [if_pos hAB]
  exact optList_subCol A B h

theorem mean_core_eq (a b theta : Mat) (hn : a.length = b.length) :
    mean ((List.zipWith (fun ca cb => List.zipWith (fun x y => x - y) ca cb)
        ((theta.map (fun c => a.map (fun row => dot row c))).map sortCol)
        ((theta.map (fun c => b.map (fun row => dot row c))).map sortCol)).map
          (fun c => c.map (fun x => x ^ 2))).flatten
      = swSpecScore a b theta := by
  simp only [swSpecScore, mean, List.map_map, Function.comp_def, zipWith_map_same,
    List.map_zipWith, List.sum_flatten, List.length_flatten, List.length_zipWith,
    length_sortCol, List.length_map, hn, min_self, List.map_const', List.sum_const_nat]
  rw [Nat.cast_mul, mul_comm]

/-! C4. -/

/-- C4: when the two batches disagree on the feature dimension, `sw_loss`
takes the shape-error branch of the second matrix product and returns no
score, for any draw of the shape `randn` guarantees and any `P ≥ 1`. -/
theorem sw_loss_dim_mismatch (a b : Mat) (rng : ℕ → ℕ → Mat) (q : ℚ → ℚ) (P : ℕ)
    (hP : 1 ≤ P) (hdraw : wellDrawn rng (numCols a) P)
    (hd : numCols a ≠ numCols b) :
    sw_loss a b rng q P = none := by
  obtain ⟨hlen, hcols⟩ := hdraw
  have hne : rng (numCols a) P ≠ [] := by
    intro hnil
    rw [hnil] at hlen
    simp at hlen
    omega
  obtain ⟨c0, hc0⟩ := List.exists_mem_of_ne_nil _ hne
  have hb : matmul b (normalizeCols q (rng (numCols a) P)) = none := by
    apply matmul_none
    intro hall
    have hmem : normalizeCol q c0 ∈ normalizeCols q (rng (numCols a) P) :=
      List.mem_map_of_mem _ hc0
    have hlc := hall _ hmem
    rw [length_normalizeCol, hcols c0 hc0] at hlc
    exact hd hlc
  simp only [sw_loss, hb]
  cases matmul a (normalizeCols q (rng (numCols a) P)) <;> rfl

/-- C4 witness: feature dimensions 1 versus 2 produce the error branch. -/
theorem sw_loss_dim_mismatch_witness :
    (1 ≤ 1 ∧ wellDrawn rngOne (numCols [[(1 : ℚ)]]) 1
      ∧ numCols [[(1 : ℚ)]] ≠ numCols [[(1 : ℚ), 2]])
    ∧ sw_loss [[(1 : ℚ)]] [[(1 : ℚ), 2]] rngOne (fun _ => 1) 1 = none :=
  ⟨⟨le_refl 1, by decide, by decide⟩,
    sw_loss_dim_mismatch [[(1 : ℚ)]] [[(1 : ℚ), 2]] rngOne (fun _ => 1) 1
      (le_refl 1) (by decide) (by decide)⟩

/-! C5 (corrected: torch broadcasting lets a batch of size 1 through). -/

/-- C5 counterexample: batch sizes 1 and 2 do not raise; dim-0 broadcasting
silently returns a numeric score. -/
theorem sw_loss_broadcast_counterexample :
    sw_loss [[(0 : ℚ)]] [[(0 : ℚ)], [(1 : ℚ)]] rngOne (fun _ => 1) 1 = some (1 / 2)
    ∧ sw_loss [[(0 : ℚ)]] [[(0 : ℚ)], [(1 : ℚ)]] rngOne (fun _ => 1) 1 ≠ none := by
  have h : sw_loss [[(0 : ℚ)]] [[(0 : ℚ)], [(1 : ℚ)]] rngOne (fun _ => 1) 1
      = some (1 / 2) := by
    norm_num [sw_loss, rngOne, normalizeCols, normalizeCol, sumSq, eps, max_def, numCols,
      matmul, dot, sortCol, List.insertionSort, List.orderedInsert, sub2d, subCol,
      optList, mean]
  exact ⟨h, by rw [h]; simp⟩

/-- C5 amended: with equal feature dimensions and unequal batch sizes both
different from 1, the elementwise subtraction of the sorted projections takes
the shape-error branch and no score is returned. -/
theorem sw_loss_batch_mismatch (a b : Mat) (rng : ℕ → ℕ → Mat) (q : ℚ → ℚ) (P : ℕ)
    (hP : 1 ≤ P) (hdraw : wellDrawn rng (numCols a) P)
    (hd : numCols a = numCols b)
    (hn : a.length ≠ b.length) (hna : a.length ≠ 1) (hnb : b.length ≠ 1) :
    sw_loss a b rng q P = none := by
  obtain ⟨hlen, hcols⟩ := hdraw
  obtain ⟨c0, T0, hT⟩ : ∃ c0 T0, rng (numCols a) P = c0 :: T0 := by
    cases hcases : rng (numCols a) P with
    | nil => rw [hcases] at hlen; simp at hlen; omega
    | cons x xs => exact ⟨x, xs, rfl⟩
  have hcolsa : ∀ c ∈ normalizeCols q (rng (numCols a) P), c.length = numCols a := by
    intro c hc
    rcases List.mem_map.1 hc with ⟨c1, hc1, rfl⟩
    rw [length_normalizeCol]
    exact hcols c1 hc1
  have hcolsb : ∀ c ∈ normalizeCols q (rng (numCols a) P), c.length = numCols b :=
    fun c hc => hd ▸ hcolsa c hc
  have hsubcol : ∀ u : List ℚ,
      subCol (sortCol (a.map (fun row => dot row u)))
        (sortCol (b.map (fun row => dot row u))) = none := by
    intro u
    have h1 : (sortCol (a.map (fun row => dot row u))).length = a.length := by
      rw [length_sortCol, List.length_map]
    have h2 : (sortCol (b.map (fun row => dot row u))).length = b.length := by
      rw [length_sortCol, List.length_map]
    simp only [subCol, h1, h2]
    rw [if_neg hn, if_neg hna, if_neg hnb]
  simp only [sw_loss, matmul_of_shape hcolsa, matmul_of_shape hcolsb]
  simp only [hT, normalizeCols, List.map_cons]
  rw [sub2d_head_none (by simp) (hsubcol _)]

/-- C5 amended witness: batch sizes 2 versus 3 hit the error branch. -/
theorem sw_loss_batch_mismatch_witness :
    (1 ≤ 1 ∧ wellDrawn rngOne (numCols [[(0 : ℚ)], [(0 : ℚ)]]) 1
      ∧ numCols [[(0 : ℚ)], [(0 : ℚ)]] = numCols [[(0 : ℚ)], [(0 : ℚ)], [(0 : ℚ)]]
      ∧ ([[(0 : ℚ)], [(0 : ℚ)]] : Mat).length ≠ ([[(0 : ℚ)], [(0 : ℚ)], [(0 : ℚ)]] : Mat).length
      ∧ ([[(0 : ℚ)], [(0 : ℚ)]] : Mat).length ≠ 1
      ∧ ([[(0 : ℚ)], [(0 : ℚ)], [(0 : ℚ)]] : Mat).length ≠ 1)
    ∧ sw_loss [[(0 : ℚ)], [(0 : ℚ)]] [[(0 : ℚ)], [(0 : ℚ)], [(0 : ℚ)]] rngOne (fun _ => 1) 1 = none :=
  ⟨⟨le_refl 1, by decide, by decide, by decide, by decide, by decide⟩,
    sw_loss_batch_mismatch [[(0 : ℚ)], [(0 : ℚ)]] [[(0 : ℚ)], [(0 : ℚ)], [(0 : ℚ)]]
      rngOne (fun _ => 1) 1 (le_refl 1) (by decide) (by decide) (by decide) (by decide) (by decide)⟩

/-! C7 (corrected: a (near-)zero column is scaled by `1 / eps`, not to unit
norm; the divisor is still always positive). -/

/-- C7 counterexample: a zero column, with the square-root oracle exactly
right on it, normalizes to the zero column whose squared norm is 0, not 1. -/
theorem normalize_zero_counterexample :
    (0 : ℚ) * 0 = sumSq [(0 : ℚ)]
    ∧ sumSq ((normalizeCols (fun _ => 0) [[(0 : ℚ)]]).headD []) = 0 := by
  constructor
  · norm_num [sumSq]
  · norm_num [normalizeCols, normalizeCol, sumSq, eps, max_def]

/-- C7 amended: normalization preserves the (d, P) shape and never divides by
zero (the divisor is at least `eps > 0`), and every column whose true norm is
at least `eps` is scaled to exactly unit squared norm. -/
theorem normalize_cols_spec (q : ℚ → ℚ) (T : Mat) (d : ℕ)
    (hcols : ∀ c ∈ T, c.length = d) :
    (normalizeCols q T).length = T.length
    ∧ (∀ c ∈ normalizeCols q T, c.length = d)
    ∧ (∀ c ∈ T, 0 < max (q (sumSq c)) eps)
    ∧ (∀ c ∈ T, eps ≤ q (sumSq c) → q (sumSq c) * q (sumSq c) = sumSq c →
        sumSq (normalizeCol q c) = 1) := by
  have heps : (0 : ℚ) < eps := by norm_num [eps]
  refine ⟨by simp [normalizeCols], ?_, ?_, ?_⟩
  · intro c hc
    rcases List.mem_map.1 hc with ⟨c1, hc1, rfl⟩
    rw [length_normalizeCol]
    exact hcols c1 hc1
  · intro c _
    exact lt_of_lt_of_le heps (le_max_right _ _)
  · intro c _ hge hsq
    have hs : max (q (sumSq c)) eps = q (sumSq c) := max_eq_left hge
    have hpos : 0 < q (sumSq c) := lt_of_lt_of_le heps hge
    rw [normalizeCol, hs, sumSq_map_div, hsq]
    exact div_self (hsq ▸ (mul_pos hpos hpos).ne')

/-- C7 amended witness: a column of norm 5 normalizes to unit squared norm,
and shape and divisor positivity hold for it. -/
theorem normalize_cols_spec_witness :
    (∀ c ∈ ([[(3 : ℚ), 4]] : Mat), c.length = 2)
    ∧ ((normalizeCols (fun _ => 5) [[(3 : ℚ), 4]]).length = 1
      ∧ (∀ c ∈ normalizeCols (fun _ => 5) [[(3 : ℚ), 4]], c.length = 2)
      ∧ (∀ c ∈ ([[(3 : ℚ), 4]] : Mat), 0 < max ((fun _ => (5 : ℚ)) (sumSq c)) eps)
      ∧ (∀ c ∈ ([[(3 : ℚ), 4]] : Mat), eps ≤ (fun _ => (5 : ℚ)) (sumSq c) →
          (fun _ => (5 : ℚ)) (sumSq c) * (fun _ => (5 : ℚ)) (sumSq c) = sumSq c →
          sumSq (normalizeCol (fun _ => 5) c) = 1)) :=
  ⟨by decide, normalize_cols_spec (fun _ => 5) [[(3 : ℚ), 4]] 2 (by decide)⟩

/-! C1. -/

/-- C1: on equal-shape batches, with the square-root oracle correct and
bounded below by `eps` on the drawn columns, `sw_loss` returns exactly the
spec-side score: the mean over all `n * P` entries of the squared differences
of the per-direction ascending-sorted projections, the direction matrix having
P unit-norm columns of the feature dimension. -/
theorem sw_loss_matches_spec (a b : Mat) (rng : ℕ → ℕ → Mat) (q : ℚ → ℚ) (P : ℕ)
    (hP : 1 ≤ P)
    (hdraw : wellDrawn rng (numCols a) P)
    (hd : numCols a = numCols b)
    (hn : a.length = b.length)
    (hq : ∀ c ∈ rng (numCols a) P,
        q (sumSq c) * q (sumSq c) = sumSq c ∧ eps ≤ q (sumSq c)) :
    sw_loss a b rng q P
      = some (swSpecScore a b (normalizeCols q (rng (numCols a) P)))
    ∧ (normalizeCols q (rng (numCols a) P)).length = P
    ∧ (∀ c ∈ normalizeCols q (rng (numCols a) P),
        c.length = numCols a ∧ sumSq c = 1) := by
  obtain ⟨hlen, hcols⟩ := hdraw
  have hcolsa : ∀ c ∈ normalizeCols q (rng (numCols a) P), c.length = numCols a := by
    intro c hc
    rcases List.mem_map.1 hc with ⟨c1, hc1, rfl⟩
    rw [length_normalizeCol]
    exact hcols c1 hc1
  have hcolsb : ∀ c ∈ normalizeCols q (rng (numCols a) P), c.length = numCols b :=
    fun c hc => hd ▸ hcolsa c hc
  have hunit : ∀ c ∈ normalizeCols q (rng (numCols a) P), sumSq c = 1 := by
    intro c hc
    rcases List.mem_map.1 hc with ⟨c1, hc1, rfl⟩
    exact sumSq_normalizeCol (hq c1 hc1).1 (hq c1 hc1).2
  refine ⟨?_, by rw [normalizeCols, List.length_map, hlen],
    fun c hc => ⟨hcolsa c hc, hunit c hc⟩⟩
  have hzip : ∀ p ∈ (((normalizeCols q (rng (numCols a) P)).map
        (fun c => a.map (fun row => dot row c))).map sortCol).zip
      (((normalizeCols q (rng (numCols a) P)).map
        (fun c => b.map (fun row => dot row c))).map sortCol),
      p.1.length = p.2.length := by
    intro p hp
    rw [List.map_map, List.map_map, List.zip_map'] at hp
    rcases List.mem_map.1 hp with ⟨u, _, rfl⟩
    simp [Function.comp_def, length_sortCol, hn]
  simp only [sw_loss, matmul_of_shape hcolsa, matmul_of_shape hcolsb]
  rw [sub2d_some (by simp) hzip]
  exact congrArg some (mean_core_eq a b _ hn)

/-- C1 witness: two concrete 1-D singleton batches with a correct oracle. -/
theorem sw_loss_matches_spec_witness :
    (1 ≤ 1 ∧ wellDrawn rngOne (numCols [[(1 : ℚ)]]) 1
      ∧ numCols [[(1 : ℚ)]] = numCols [[(2 : ℚ)]]
      ∧ ([[(1 : ℚ)]] : Mat).length = ([[(2 : ℚ)]] : Mat).length
      ∧ ∀ c ∈ rngOne (numCols [[(1 : ℚ)]]) 1,
          (fun _ => (1 : ℚ)) (sumSq c) * (fun _ => (1 : ℚ)) (sumSq c) = sumSq c
          ∧ eps ≤ (fun _ => (1 : ℚ)) (sumSq c))
    ∧ sw_loss [[(1 : ℚ)]] [[(2 : ℚ)]] rngOne (fun _ => 1) 1
      = some (swSpecScore [[(1 : ℚ)]] [[(2 : ℚ)]]
          (normalizeCols (fun _ => 1) (rngOne (numCols [[(1 : ℚ)]]) 1))) := by
  have hq : ∀ c ∈ rngOne (numCols [[(1 : ℚ)]]) 1,
      (fun _ => (1 : ℚ)) (sumSq c) * (fun _ => (1 : ℚ)) (sumSq c) = sumSq c
      ∧ eps ≤ (fun _ => (1 : ℚ)) (sumSq c) := by
    norm_num [rngOne, sumSq, eps, numCols]
  exact ⟨⟨le_refl 1, by decide, by decide, by decide, hq⟩,
    (sw_loss_matches_spec [[(1 : ℚ)]] [[(2 : ℚ)]] rngOne (fun _ => 1) 1
      (le_refl 1) (by decide) (by decide) (by decide) hq).1⟩

/-! C6: sorting behaviour under negation, and the 1-D reduction. -/

theorem sortCol_map_neg (l : List ℚ) :
    sortCol (l.map (fun x => -x)) = ((sortCol l).map (fun x => -x)).reverse := by
  apply List.eq_of_perm_of_sorted (r := fun x y : ℚ => x ≤ y)
  · refine (List.perm_insertionSort _ _).trans ?_
    refine (((List.perm_insertionSort (fun x y : ℚ => x ≤ y) l).map _).symm).trans ?_
    exact (List.reverse_perm _).symm
  · exact List.sorted_insertionSort _ _
  · rw [List.Sorted, List.pairwise_reverse]
    exact List.Pairwise.map (fun x => -x) (fun a b h => neg_le_neg h)
      (List.sorted_insertionSort (fun x y : ℚ => x ≤ y) l)

theorem col_sum_pos (X Y : List ℚ) :
    ((List.zipWith (fun x y => x - y) (sortCol X) (sortCol Y)).map (fun x => x ^ 2)).sum
      = (List.zipWith (fun x y => (x - y) ^ 2) (sortCol X) (sortCol Y)).sum := by
  rw [List.map_zipWith]

theorem col_sum_neg (X Y : List ℚ) (h : X.length = Y.length) :
    ((List.zipWith (fun x y => x - y)
        (sortCol (X.map (fun x => -x))) (sortCol (Y.map (fun x => -x)))).map
          (fun x => x ^ 2)).sum
      = (List.zipWith (fun x y => (x - y) ^ 2) (sortCol X) (sortCol Y)).sum := by
  rw [List.map_zipWith, sortCol_map_neg, sortCol_map_neg,
    ← List.reverse_zipWith (by simp [length_sortCol, h]), List.sum_reverse]
  simp only [List.zipWith_map]
  have hfun : (fun a b : ℚ => (-a - -b) ^ 2) = fun a b : ℚ => (a - b) ^ 2 := by
    funext x y
    ring
  rw [hfun]

/-- C6 counterexample: a drawn 1-D direction of magnitude below `eps` (here
`eps / 2`, its square root supplied exactly) normalizes to `1 / 2`, not to
+1 or -1, and the returned score is a quarter of the raw mean squared
difference instead of equal to it. -/
theorem sw_loss_one_dim_counterexample :
    (fun _ => eps / 2) (sumSq [eps / 2]) = |(eps / 2 : ℚ)|
    ∧ sw_loss [[(1 : ℚ)]] [[(2 : ℚ)]] rngTiny (fun _ => eps / 2) 1 = some (1 / 4)
    ∧ mse1D [[(1 : ℚ)]] [[(2 : ℚ)]] = 1
    ∧ (1 / 4 : ℚ) ≠ 1 := by
  refine ⟨by rw [abs_of_pos (by norm_num [eps])], ?_, ?_, by norm_num⟩
  · norm_num [sw_loss, rngTiny, normalizeCols, normalizeCol, sumSq, eps, max_def, numCols,
      matmul, dot, sortCol, List.insertionSort, List.orderedInsert, sub2d, subCol,
      optList, mean]
  · norm_num [mse1D, sortedRaw, sortCol, List.insertionSort, List.orderedInsert, mean]

/-- C6 amended: for 1-D batches of equal size, whenever every drawn direction
value clears `eps` in magnitude (so its normalized value is +1 or -1),
`sw_loss` returns exactly the mean squared difference of the ascending-sorted
raw values. -/
theorem sw_loss_one_dim (a b : Mat) (rng : ℕ → ℕ → Mat) (q : ℚ → ℚ) (P : ℕ)
    (hP : 1 ≤ P)
    (hda : numCols a = 1) (hdb : numCols b = 1)
    (hra : ∀ row ∈ a, row.length = 1) (hrb : ∀ row ∈ b, row.length = 1)
    (hn : a.length = b.length)
    (hdraw : wellDrawn rng (numCols a) P)
    (hq : ∀ c ∈ rng (numCols a) P, q (sumSq c) = |c.headD 0| ∧ eps ≤ |c.headD 0|) :
    sw_loss a b rng q P = some (mse1D a b) := by
  obtain ⟨hlen, hcols⟩ := hdraw
  have heps : (0 : ℚ) < eps := by norm_num [eps]
  have hface : ∀ u ∈ normalizeCols q (rng (numCols a) P), u = [(1 : ℚ)] ∨ u = [(-1 : ℚ)] := by
    intro u hu
    rcases List.mem_map.1 hu with ⟨c, hc, rfl⟩
    obtain ⟨r, rfl⟩ := List.length_eq_one.1 (by rw [hcols c hc, hda])
    obtain ⟨hq1, hq2⟩ := hq _ hc
    have hr0 : r ≠ 0 := by
      intro h0
      rw [h0] at hq2
      simp at hq2
      exact absurd (lt_of_lt_of_le heps hq2) (lt_irrefl 0)
    have hmax : max (q (sumSq [r])) eps = |r| := by
      rw [hq1]
      exact max_eq_left (by simpa using hq2)
    have hcol : normalizeCol q [r] = [r / |r|] := by
      simp [normalizeCol, hmax]
    rcases lt_or_gt_of_ne hr0 with hneg | hpos
    · right
      rw [hcol, abs_of_neg hneg, div_neg, div_self hr0]
    · left
      rw [hcol, abs_of_pos hpos, div_self hr0]
  have hproj : ∀ (M : Mat), (∀ row ∈ M, row.length = 1) → ∀ s : ℚ,
      M.map (fun row => dot row [s])
        = (M.map (fun row => row.headD 0)).map (fun x => x * s) := by
    intro M hM s
    rw [List.map_map]
    apply List.map_congr_left
    intro row hrow
    obtain ⟨x, rfl⟩ := List.length_eq_one.1 (hM row hrow)
    simp [dot]
  have hcolsa : ∀ u ∈ normalizeCols q (rng (numCols a) P), u.length = numCols a := by
    intro u hu
    rcases List.mem_map.1 hu with ⟨c, hc, rfl⟩
    rw [length_normalizeCol]
    exact hcols c hc
  have hcolsb : ∀ u ∈ normalizeCols q (rng (numCols a) P), u.length = numCols b :=
    fun u hu => by rw [hcolsa u hu, hda, hdb]
  have hzip : ∀ p ∈ (((normalizeCols q (rng (numCols a) P)).map
        (fun c => a.map (fun row => dot row c))).map sortCol).zip
      (((normalizeCols q (rng (numCols a) P)).map
        (fun c => b.map (fun row => dot row c))).map sortCol),
      p.1.length = p.2.length := by
    intro p hp
    rw [List.map_map, List.map_map, List.zip_map'] at hp
    rcases List.mem_map.1 hp with ⟨u, _, rfl⟩
    simp [Function.comp_def, length_sortCol, hn]
  simp only [sw_loss, matmul_of_shape hcolsa, matmul_of_shape hcolsb]
  rw [sub2d_some (by simp) hzip]
  refine congrArg some ?_
  simp only [List.map_map, Function.comp_def, zipWith_map_same, mean,
    List.sum_flatten, List.length_flatten]
  have hsum : ∀ u ∈ normalizeCols q (rng (numCols a) P),
      ((List.zipWith (fun x y => x - y)
          (sortCol (a.map (fun row => dot row u)))
          (sortCol (b.map (fun row => dot row u)))).map (fun x => x ^ 2)).sum
        = (List.zipWith (fun x y => (x - y) ^ 2) (sortedRaw a) (sortedRaw b)).sum := by
    intro u hu
    rcases hface u hu with rfl | rfl
    · rw [hproj a hra 1, hproj b hrb 1]
      simp only [mul_one, List.map_id']
      exact col_sum_pos _ _
    · rw [hproj a hra (-1), hproj b hrb (-1)]
      have hnegform : ∀ M : Mat, (M.map (fun row => row.headD 0)).map (fun x => x * -1)
          = (M.map (fun row => row.headD 0)).map (fun x => -x) := by
        intro M
        apply List.map_congr_left
        intro x _
        ring
      rw [hnegform a, hnegform b]
      exact col_sum_neg _ _ (by simp [hn])
  have hlength : ∀ u ∈ normalizeCols q (rng (numCols a) P),
      ((List.zipWith (fun x y => x - y)
          (sortCol (a.map (fun row => dot row u)))
          (sortCol (b.map (fun row => dot row u)))).map (fun x => x ^ 2)).length
        = a.length := by
    intro u _
    simp [List.length_zipWith, length_sortCol, hn]
  rw [List.map_congr_left hsum, List.map_congr_left hlength,
    List.map_const', List.map_const', List.sum_replicate, List.sum_replicate]
  have hthetalen : (normalizeCols q (rng (numCols a) P)).length = P := by
    rw [normalizeCols, List.length_map, hlen]
  rw [hthetalen, nsmul_eq_mul, smul_eq_mul, mse1D, mean]
  simp only [sortedRaw, List.length_zipWith, length_sortCol, List.length_map, hn, min_self,
    Nat.cast_mul]
  exact mul_div_mul_left _ _ (Nat.cast_ne_zero.2 (by omega))

/-- C6 witness: singleton 1-D batches with a drawn direction that normalizes
to -1 still score the raw mean squared difference. -/
theorem sw_loss_one_dim_witness :
    (1 ≤ 1 ∧ numCols [[(1 : ℚ)]] = 1 ∧ numCols [[(2 : ℚ)]] = 1
      ∧ (∀ row ∈ ([[(1 : ℚ)]] : Mat), row.length = 1)
      ∧ (∀ row ∈ ([[(2 : ℚ)]] : Mat), row.length = 1)
      ∧ ([[(1 : ℚ)]] : Mat).length = ([[(2 : ℚ)]] : Mat).length
      ∧ wellDrawn rngNegOne (numCols [[(1 : ℚ)]]) 1
      ∧ ∀ c ∈ rngNegOne (numCols [[(1 : ℚ)]]) 1,
          (fun _ => (1 : ℚ)) (sumSq c) = |c.headD 0| ∧ eps ≤ |c.headD 0|)
    ∧ sw_loss [[(1 : ℚ)]] [[(2 : ℚ)]] rngNegOne (fun _ => 1) 1
      = some (mse1D [[(1 : ℚ)]] [[(2 : ℚ)]]) := by
  have hq : ∀ c ∈ rngNegOne (numCols [[(1 : ℚ)]]) 1,
      (fun _ => (1 : ℚ)) (sumSq c) = |c.headD 0| ∧ eps ≤ |c.headD 0| := by
    norm_num [rngNegOne, sumSq, eps, numCols]
  exact ⟨⟨le_refl 1, by decide, by decide, by decide, by decide, by decide, by decide, hq⟩,
    sw_loss_one_dim [[(1 : ℚ)]] [[(2 : ℚ)]] rngNegOne (fun _ => 1) 1 (le_refl 1)
      (by decide) (by decide) (by decide) (by decide) (by decide) (by decide) hq⟩

/-! C9. -/

theorem asNumList_map_num (l : List ℚ) :
    asNumList (Json.arr (l.map Json.num)) = some l := by
  induction l with
  | nil => rfl
  | cons x xs ih =>
    simp only [asNumList, List.map_cons, optList] at ih ⊢
    rw [ih]
    rfl

/-- C9: when the parsed history object holds float sequences under
`train_loss` and `valid_loss`, `plot_loss` renders exactly those sequences —
every point, each against its own index 0,1,2,... as the x-axis — and a
missing or malformed file is an error that is not recovered. -/
theorem plot_loss_spec (h : Json) (tl vl : List ℚ)
    (ht : getKey h "train_loss" = some (Json.arr (tl.map Json.num)))
    (hv : getKey h "valid_loss" = some (Json.arr (vl.map Json.num))) :
    plot_loss (some h) = .ok ⟨plt_plot tl, plt_plot vl⟩
    ∧ (plt_plot tl).length = tl.length
    ∧ (plt_plot tl).map Prod.snd = tl
    ∧ (plt_plot tl).map Prod.fst = List.range tl.length
    ∧ (plt_plot vl).length = vl.length
    ∧ (plt_plot vl).map Prod.snd = vl
    ∧ (plt_plot vl).map Prod.fst = List.range vl.length
    ∧ plot_loss none = .error "io-or-parse-error" := by
  refine ⟨?_, ?_, ?_, ?_, ?_, ?_, ?_, rfl⟩
  · simp only [plot_loss, ht, hv, asNumList_map_num]
  · simp [plt_plot, List.length_zip, List.length_range]
  · exact List.map_snd_zip _ _ (le_of_eq (List.length_range _).symm)
  · exact List.map_fst_zip _ _ (le_of_eq (List.length_range _))
  · simp [plt_plot, List.length_zip, List.length_range]
  · exact List.map_snd_zip _ _ (le_of_eq (List.length_range _).symm)
  · exact List.map_fst_zip _ _ (le_of_eq (List.length_range _))

/-- C9 witness: a concrete three-point history file round-trips. -/
theorem plot_loss_spec_witness :
    (getKey historyFixture "train_loss"
        = some (Json.arr (([(1 : ℚ), 2, 3]).map Json.num))
      ∧ getKey historyFixture "valid_loss"
        = some (Json.arr (([(4 : ℚ), 5, 6]).map Json.num)))
    ∧ plot_loss (some historyFixture)
      = .ok ⟨plt_plot [(1 : ℚ), 2, 3], plt_plot [(4 : ℚ), 5, 6]⟩ :=
  ⟨⟨rfl, rfl⟩, (plot_loss_spec historyFixture [(1 : ℚ), 2, 3] [(4 : ℚ), 5, 6] rfl rfl).1⟩

/-! C10. -/

theorem readT_append (l ext : Heap) (i : ℕ) (hi : i < l.length) :
    readT (l ++ ext) i = readT l i := by
  rw [readT, readT]
  exact List.getD_append _ _ _ _ hi

/-- C10: `sw_loss` never modifies its input tensors: in the heap embedding,
where each torch operation of the source allocates a fresh cell and only
in-place operations would overwrite, every pre-existing cell — in particular
both input batches — holds exactly the same value after the call. -/
theorem sw_lossST_preserves_inputs (h : Heap) (ia ib : ℕ) (rng : ℕ → ℕ → Mat)
    (q : ℚ → ℚ) (P : ℕ) (hia : ia < h.length) (hib : ib < h.length) :
    readT (sw_lossST h ia ib rng q P).1 ia = readT h ia
    ∧ readT (sw_lossST h ia ib rng q P).1 ib = readT h ib := by
  have main : ∀ j, j < h.length →
      readT (sw_lossST h ia ib rng q P).1 j = readT h j := by
    intro j hj
    simp only [sw_lossST]
    split
    · split
      · simp only [List.append_assoc]
        exact readT_append _ _ _ hj
      · simp only [List.append_assoc]
        exact readT_append _ _ _ hj
    · simp only [List.append_assoc]
      exact readT_append _ _ _ hj
  exact ⟨main ia hia, main ib hib⟩

/-- C10 witness: on a concrete two-tensor heap, both inputs are unchanged. -/
theorem sw_lossST_preserves_inputs_witness :
    (0 < ([[[(1 : ℚ)]], [[(2 : ℚ)]]] : Heap).length
      ∧ 1 < ([[[(1 : ℚ)]], [[(2 : ℚ)]]] : Heap).length)
    ∧ readT (sw_lossST [[[(1 : ℚ)]], [[(2 : ℚ)]]] 0 1 rngOne (fun _ => 1) 1).1 0
        = readT [[[(1 : ℚ)]], [[(2 : ℚ)]]] 0
    ∧ readT (sw_lossST [[[(1 : ℚ)]], [[(2 : ℚ)]]] 0 1 rngOne (fun _ => 1) 1).1 1
        = readT [[[(1 : ℚ)]], [[(2 : ℚ)]]] 1 :=
  ⟨⟨by decide, by decide⟩,
    (sw_lossST_preserves_inputs [[[(1 : ℚ)]], [[(2 : ℚ)]]] 0 1 rngOne (fun _ => 1) 1
      (by decide) (by decide)).1,
    (sw_lossST_preserves_inputs [[[(1 : ℚ)]], [[(2 : ℚ)]]] 0 1 rngOne (fun _ => 1) 1
      (by decide) (by decide)).2⟩

end SWD
